import Mathlib

/-!
Shallow embedding of the glognn small-scale training script
(src/glognn/small-scale/main.py): the MLP_NORM layer's propagation
strategies (order_func1/2/3), its two normalization steps
(norm_func1/2), the forward-pass embedding, row normalization of
graph matrices (normalize), and the training loop's early-stopping and
best-parameter checkpoint logic.

Floating-point tensors of the source are modelled as rational matrices
with Lean's total field operations (division by zero yields zero, which
mirrors the script's own convention of mapping infinite row reciprocals
to zero).  Out-of-range tensor indexing, which raises in the source, is
modelled by Option-valued functions returning none.
-/

namespace GHSM

/-- Dense rational matrix with `a` rows and `b` columns, the working
representation for the script's float64 tensors. -/
abbrev Mat (a b : ℕ) : Type := Matrix (Fin a) (Fin b) ℚ

/-- Entrywise rectified linear unit, modelling `torch.relu` /
`F.relu`. -/
def relu {a b : ℕ} (M : Mat a b) : Mat a b :=
  Matrix.of fun i j => max (M i j) 0

/-- Scale row `i` of a matrix by `p i`; models broadcasting a column
vector against a matrix (`v * M` with `v` of shape `(a,1)`). -/
def rowScale {a b : ℕ} (p : Fin a → ℚ) (M : Mat a b) : Mat a b :=
  Matrix.of fun i j => p i * M i j

/-- Scale column `j` of a matrix by `d j`; models broadcasting a row
vector against a matrix (`M * v.t()` with `v` of shape `(b,1)`). -/
def colScale {a b : ℕ} (d : Fin b → ℚ) (M : Mat a b) : Mat a b :=
  Matrix.of fun i j => M i j * d j

/-- Computable matrix inverse over the rationals, modelling
`torch.inverse` (on a singular input, where the source raises a fatal
numerical error, it returns the zero matrix as a junk value). -/
def minv {k : ℕ} (A : Matrix (Fin k) (Fin k) ℚ) : Matrix (Fin k) (Fin k) ℚ :=
  A.det⁻¹ • A.adjugate

/-! ### Propagation strategies (PropagationOperator)

`MLP_NORM.order_func1/2/3`, main.py lines 218-247.  Each receives the
current embedding `x`, the residual `res` being propagated, and the
adjacency `adjM`.  The per-order weight tensor `orders_weight`
(constructed in `__init__` as `torch.ones(orders, 1) / orders`) is
modelled as a list, and indexing it out of range yields `none`. -/

/-- Loop body of `order_func1`: `orders` times do
`tmp = adj @ tmp; sum = sum + tmp`. -/
def ofun1Loop {n c : ℕ} (adjM : Mat n n) : ℕ → Mat n c → Mat n c → Mat n c
  | 0, _, s => s
  | k + 1, tmp, s =>
    let t2 := adjM * tmp
    ofun1Loop adjM k t2 (s + t2)

/-- Strategy 1 (`order_func1`): start the running sum at the raw
residual, then add `orders` successive adjacency propagations. -/
def order_func1 {n c : ℕ} (orders : ℕ) (res : Mat n c) (adjM : Mat n n) : Mat n c :=
  ofun1Loop adjM orders res res

/-- The per-order weight tensor built in `MLP_NORM.__init__`:
`torch.ones(orders, 1) / orders`, i.e. `orders` copies of
`1 / orders`. -/
def mkOrdersWeight (orders : ℕ) : List ℚ :=
  List.replicate orders (1 / (orders : ℚ))

/-- Loop body of `order_func2`: iterations `i = 1, ..., orders - 1`,
each doing `tmp = adj @ tmp; sum = sum + w[i] * tmp`, with `none` on an
out-of-range weight index. -/
def ofun2Loop {n c : ℕ} (adjM : Mat n n) (w : List ℚ) :
    ℕ → ℕ → Mat n c → Mat n c → Option (Mat n c)
  | _, 0, _, s => some s
  | i, cnt + 1, tmp, s =>
    match w.get? i with
    | none => none
    | some wi =>
      let t2 := adjM * tmp
      ofun2Loop adjM w (i + 1) cnt t2 (s + wi • t2)

/-- Strategy 2 (`order_func2`): `sum = w[0] * (adj @ res)` followed by
the weighted loop; indexing `w[0]` of an empty weight tensor fails. -/
def order_func2 {n c : ℕ} (w : List ℚ) (orders : ℕ) (res : Mat n c) (adjM : Mat n n) :
    Option (Mat n c) :=
  let t1 := adjM * res
  match w.get? 0 with
  | none => none
  | some w0 => ofun2Loop adjM w 1 (orders - 1) t1 (w0 • t1)

/-- Row `i` of a `K × b` matrix, or `none` when `i ≥ K`; models integer
row indexing `M[i]` of a tensor. -/
def rowGet {K b : ℕ} (M : Mat K b) (i : ℕ) : Option (Fin b → ℚ) :=
  if h : i < K then some (M ⟨i, h⟩) else none

/-- Loop body of `order_func3`: iterations `i = 1, ..., orders - 1`,
each doing `tmp = adj @ tmp; sum = sum + para[i].unsqueeze(1) * tmp`. -/
def ofun3Loop {n c K : ℕ} (adjM : Mat n n) (para : Mat K n) :
    ℕ → ℕ → Mat n c → Mat n c → Option (Mat n c)
  | _, 0, _, s => some s
  | i, cnt + 1, tmp, s =>
    match rowGet para i with
    | none => none
    | some p =>
      let t2 := adjM * tmp
      ofun3Loop adjM para (i + 1) cnt t2 (s + rowScale p t2)

/-- Strategy 3 (`order_func3`): per-node, per-order weights
`para = (relu(x @ M1) @ M2).t()`; the initial term indexes row 0 of
`para`, which fails when `orders = 0`. -/
def order_func3 {n c : ℕ} (orders : ℕ) (M1 : Mat c orders) (M2 : Mat orders orders)
    (x : Mat n c) (res : Mat n c) (adjM : Mat n n) : Option (Mat n c) :=
  let para := Matrix.transpose (relu (x * M1) * M2)
  let t1 := adjM * res
  match rowGet para 0 with
  | none => none
  | some p0 => ofun3Loop adjM para 1 (orders - 1) t1 (rowScale p0 t1)

/-! ### Normalization steps (NormalizationStep)

`MLP_NORM.norm_func1` (main.py lines 168-182) and
`MLP_NORM.norm_func2` (lines 184-216).  The propagation operator
selected by `orders_func_id` is passed as a function argument `ofun`,
mirroring the `self.order_func` dispatch resolved in `__init__`. -/

/-- Variant 1 of the normalization step, transcribed from
`norm_func1`: closed-form ridge correction via a class-sized matrix
inverse, then the selected propagation of the corrected residual, then
the skip-connected update.  The rational total division (`1/0 = 0`)
makes this transcription faithful exactly on the regime
`gamma ≠ 1`, `alpha + beta ≠ 0`, where the source performs no division
by zero; the `gamma = 1` float64 path is modelled separately by
`normFunc1Float`. -/
def norm_func1 {n c : ℕ} (alpha beta gamma : ℚ)
    (ofun : Mat n c → Mat n c → Mat n n → Mat n c)
    (x h0 : Mat n c) (adjM : Mat n n) : Mat n c :=
  let coe := 1 / (alpha + beta)
  let coe1 := 1 - gamma
  let coe2 := 1 / coe1
  let gram := Matrix.transpose x * x
  let inv := minv ((coe2 * coe2) • (1 : Matrix (Fin c) (Fin c) ℚ) + coe • gram)
  let proj := inv * gram
  let corrected := (coe1 * coe) • x - (coe1 * coe * coe) • (x * proj)
  let tmp := Matrix.transpose x * corrected
  let sum_orders := ofun x corrected adjM
  coe1 • (x * tmp) + beta • sum_orders - (gamma * coe1) • (h0 * tmp) + gamma • h0

/-- Variant-1 update written exactly as the specification states it:
`coe = 1/(alpha+beta)`, `coe1 = 1-gamma`, `coe2 = 1/coe1`,
`G = Xᵗ X`, `inv = (coe2² I_C + coe G)⁻¹`,
`corrected = coe1 coe X - coe1 coe² X (inv G)`, `tmp = Xᵗ corrected`,
`propagated` the selected propagation of `corrected`, and result
`coe1 (X tmp) + beta propagated - gamma coe1 (H0 tmp) + gamma H0`. -/
def norm_func1_spec {n c : ℕ} (alpha beta gamma : ℚ)
    (ofun : Mat n c → Mat n c → Mat n n → Mat n c)
    (x h0 : Mat n c) (adjM : Mat n n) : Mat n c :=
  let coe := 1 / (alpha + beta)
  let coe1 := 1 - gamma
  let coe2 := 1 / coe1
  let G := Matrix.transpose x * x
  let inv := minv (coe2 ^ 2 • (1 : Matrix (Fin c) (Fin c) ℚ) + coe • G)
  let corrected := (coe1 * coe) • x - (coe1 * coe ^ 2) • (x * (inv * G))
  let tmp := Matrix.transpose x * corrected
  let propagated := ofun x corrected adjM
  coe1 • (x * tmp) + beta • propagated - (gamma * coe1) • (h0 * tmp) + gamma • h0

/-- Weighted sum of positive adjacency powers computed (densely) by the
trailing `z` block of `norm_func2`: `a_sum = Σ_k w[k-1] * A^k`, with
`none` on an out-of-range weight index. -/
def zLoop {n : ℕ} (w : List ℚ) (adjM : Mat n n) :
    ℕ → ℕ → Mat n n → Mat n n → Option (Mat n n)
  | _, 0, _, acc => some acc
  | i, cnt + 1, adjk, acc =>
    match w.get? i with
    | none => none
    | some wi =>
      let adjk2 := adjk * adjM
      zLoop w adjM (i + 1) cnt adjk2 (acc + wi • adjk2)

/-- Entry point of the `z`-block power sum: `a_sum = w[0] * A` followed
by the loop over `i = 1, ..., orders - 1`. -/
def zAccum {n : ℕ} (w : List ℚ) (orders : ℕ) (adjM : Mat n n) : Option (Mat n n) :=
  match w.get? 0 with
  | none => none
  | some w0 => zLoop w adjM 1 (orders - 1) adjM (w0 • adjM)

/-- Variant 2 of the normalization step, transcribed from
`norm_func2`: the variant-1 update with the corrected residual scaled
columnwise by the learned diagonal weight `dw` and `tmp` scaled
rowwise by `dw`, followed by the trailing `z` computation whose value
is never used in the returned result (but whose weight indexing can
fail). -/
def norm_func2 {n c : ℕ} (alpha beta gamma : ℚ) (dw : Fin c → ℚ)
    (ow : List ℚ) (orders : ℕ)
    (ofun : Mat n c → Mat n c → Mat n n → Mat n c)
    (x h0 : Mat n c) (adjM : Mat n n) : Option (Mat n c) :=
  let coe := 1 / (alpha + beta)
  let coe1 := 1 - gamma
  let coe2 := 1 / coe1
  let gram := Matrix.transpose x * x
  let inv := minv ((coe2 * coe2) • (1 : Matrix (Fin c) (Fin c) ℚ) + coe • gram)
  let proj := inv * gram
  let corrected := colScale dw ((coe1 * coe) • x - (coe1 * coe * coe) • (x * proj))
  let tmp := rowScale dw (Matrix.transpose x * corrected)
  let sum_orders := ofun x corrected adjM
  let res := coe1 • (x * tmp) + beta • sum_orders -
    (gamma * coe1) • (h0 * tmp) + gamma • h0
  let xx := x * Matrix.transpose x
  let hx := h0 * Matrix.transpose x
  match zAccum ow orders adjM with
  | none => none
  | some aSum =>
    let z := (coe1 • xx + beta • aSum - (gamma * coe1) • hx) *
      minv ((coe1 * coe1) • xx + (alpha + beta) • (1 : Matrix (Fin n) (Fin n) ℚ))
    some res

/-- Variant 2 with the trailing `z` block deleted: the diag-weighted
variant-1 update alone. -/
def norm_func2_noz {n c : ℕ} (alpha beta gamma : ℚ) (dw : Fin c → ℚ)
    (ofun : Mat n c → Mat n c → Mat n n → Mat n c)
    (x h0 : Mat n c) (adjM : Mat n n) : Mat n c :=
  let coe := 1 / (alpha + beta)
  let coe1 := 1 - gamma
  let coe2 := 1 / coe1
  let gram := Matrix.transpose x * x
  let inv := minv ((coe2 * coe2) • (1 : Matrix (Fin c) (Fin c) ℚ) + coe • gram)
  let proj := inv * gram
  let corrected := colScale dw ((coe1 * coe) • x - (coe1 * coe * coe) • (x * proj))
  let tmp := rowScale dw (Matrix.transpose x * corrected)
  let sum_orders := ofun x corrected adjM
  coe1 • (x * tmp) + beta • sum_orders -
    (gamma * coe1) • (h0 * tmp) + gamma • h0

/-! ### Float64 scalar model for the division-by-zero regime

The rational model above is faithful only while no division by zero
occurs (for `norm_func1`: `gamma ≠ 1` and `alpha + beta ≠ 0`).  At
`gamma = 1` the source computes `coe2 = 1.0/0.0 = inf` in float64 and
feeds an inf/NaN matrix to `torch.inverse`; that regime is modelled
here by scalars that carry infinities and NaN with the IEEE-754
propagation rules (finite values kept exact as rationals). -/

/-- A float64 scalar: a finite value, a signed infinity, or NaN. -/
inductive FScalar : Type where
  | fin : ℚ → FScalar
  | inf : FScalar
  | ninf : FScalar
  | nan : FScalar
deriving DecidableEq

/-- IEEE negation. -/
def fneg : FScalar → FScalar
  | .fin a => .fin (-a)
  | .inf => .ninf
  | .ninf => .inf
  | .nan => .nan

/-- IEEE addition: NaN propagates, opposite infinities give NaN. -/
def fadd : FScalar → FScalar → FScalar
  | .nan, _ => .nan
  | _, .nan => .nan
  | .fin a, .fin b => .fin (a + b)
  | .inf, .ninf => .nan
  | .ninf, .inf => .nan
  | .inf, _ => .inf
  | _, .inf => .inf
  | .ninf, _ => .ninf
  | _, .ninf => .ninf

/-- IEEE subtraction. -/
def fsub (a b : FScalar) : FScalar :=
  fadd a (fneg b)

/-- IEEE multiplication: NaN propagates, `inf * 0 = NaN`. -/
def fmul : FScalar → FScalar → FScalar
  | .nan, _ => .nan
  | _, .nan => .nan
  | .fin a, .fin b => .fin (a * b)
  | .inf, .fin b => if b = 0 then .nan else if 0 < b then .inf else .ninf
  | .fin a, .inf => if a = 0 then .nan else if 0 < a then .inf else .ninf
  | .ninf, .fin b => if b = 0 then .nan else if 0 < b then .ninf else .inf
  | .fin a, .ninf => if a = 0 then .nan else if 0 < a then .ninf else .inf
  | .inf, .inf => .inf
  | .inf, .ninf => .ninf
  | .ninf, .inf => .ninf
  | .ninf, .ninf => .inf

/-- IEEE division: NaN propagates, a nonzero finite value divided by
zero gives a signed infinity (`1.0/0.0 = inf`, the case the source
hits at `gamma = 1`), `0/0` and `inf/inf` give NaN. -/
def fdiv : FScalar → FScalar → FScalar
  | .nan, _ => .nan
  | _, .nan => .nan
  | .fin a, .fin b =>
    if b = 0 then (if a = 0 then .nan else if 0 < a then .inf else .ninf)
    else .fin (a / b)
  | .fin _, .inf => .fin 0
  | .fin _, .ninf => .fin 0
  | .inf, .fin b => if 0 ≤ b then .inf else .ninf
  | .ninf, .fin b => if 0 ≤ b then .ninf else .inf
  | .inf, .inf => .nan
  | .inf, .ninf => .nan
  | .ninf, .inf => .nan
  | .ninf, .ninf => .nan

/-- Matrix of float64 scalars. -/
abbrev FMat (a b : ℕ) : Type := Matrix (Fin a) (Fin b) FScalar

/-- Left-to-right float sum of a list of scalars. -/
def fSum : List FScalar → FScalar
  | [] => .fin 0
  | a :: l => fadd a (fSum l)

/-- Float matrix product. -/
def fMatMul {a b c : ℕ} (M : FMat a b) (N : FMat b c) : FMat a c :=
  Matrix.of fun i j => fSum ((List.finRange b).map fun k => fmul (M i k) (N k j))

/-- Entrywise float matrix addition. -/
def fMatAdd {a b : ℕ} (M N : FMat a b) : FMat a b :=
  Matrix.of fun i j => fadd (M i j) (N i j)

/-- Entrywise float matrix subtraction. -/
def fMatSub {a b : ℕ} (M N : FMat a b) : FMat a b :=
  Matrix.of fun i j => fsub (M i j) (N i j)

/-- Float scalar-matrix product. -/
def fSmul {a b : ℕ} (s : FScalar) (M : FMat a b) : FMat a b :=
  Matrix.of fun i j => fmul s (M i j)

/-- The float identity matrix (`self.class_eye`). -/
def feye (c : ℕ) : FMat c c :=
  Matrix.of fun i j => if i = j then .fin 1 else .fin 0

/-- Variant-1 normalization transcribed over float64 scalars, with
`torch.inverse` abstracted as the parameter `finv` (its behavior on
inf/NaN inputs is backend LAPACK's, constrained by hypothesis where a
theorem needs it). -/
def normFunc1Float {n c : ℕ} (finv : FMat c c → FMat c c)
    (alpha beta gamma : FScalar)
    (ofun : FMat n c → FMat n c → FMat n n → FMat n c)
    (x h0 : FMat n c) (adjM : FMat n n) : FMat n c :=
  let coe := fdiv (.fin 1) (fadd alpha beta)
  let coe1 := fsub (.fin 1) gamma
  let coe2 := fdiv (.fin 1) coe1
  let gram := fMatMul (Matrix.transpose x) x
  let inv := finv (fMatAdd (fSmul (fmul coe2 coe2) (feye c)) (fSmul coe gram))
  let proj := fMatMul inv gram
  let corrected := fMatSub (fSmul (fmul coe1 coe) x)
    (fSmul (fmul (fmul coe1 coe) coe) (fMatMul x proj))
  let tmp := fMatMul (Matrix.transpose x) corrected
  let sum_orders := ofun x corrected adjM
  fMatAdd
    (fMatSub (fMatAdd (fSmul coe1 (fMatMul x tmp)) (fSmul beta sum_orders))
      (fSmul (fmul gamma coe1) (fMatMul h0 tmp)))
    (fSmul gamma h0)

/-- A concrete NaN-propagating model of `torch.inverse`: any NaN entry
in the input poisons every entry of the output, as LAPACK's LU
factorization does; its value on NaN-free inputs is irrelevant to the
traces below and left as the input itself. -/
def finvNan {c : ℕ} (A : FMat c c) : FMat c c :=
  if ∃ i j, A i j = FScalar.nan then Matrix.of fun _ _ => FScalar.nan else A

/-- Concrete 1-node, 2-class float embedding used to exercise the
`gamma = 1` divergence. -/
def fxDemo : FMat 1 2 :=
  Matrix.of fun _ j => if j = 0 then .fin 1 else .fin 0

/-- Concrete 1-node float adjacency (a single self-loop). -/
def fadjDemo : FMat 1 1 :=
  Matrix.of fun _ _ => .fin 1

/-! ### Forward pass of MLP_NORM (main.py lines 155-166)

Dropout draws a random mask at each call; a single realized application
is modelled by an arbitrary matrix function `d`, applied only in
training mode (`F.dropout` is the identity when `training=False`). -/

/-- A dense affine layer (`nn.Linear`): weight and bias. -/
structure Lin (a b : ℕ) where
  w : Mat a b
  bias : Fin b → ℚ

/-- Apply an affine layer rowwise: `x @ w + bias`. -/
def linApp {n a b : ℕ} (L : Lin a b) (x : Mat n a) : Mat n b :=
  Matrix.of fun i j => (x * L.w) i j + L.bias j

/-- One realized application of `F.dropout`: the mask function `d` in
training mode, the identity in evaluation mode. -/
def dropoutApp {a b : ℕ} (training : Bool) (d : Mat a b → Mat a b) (x : Mat a b) :
    Mat a b :=
  if training then d x else x

/-- Pre-normalization embedding of `MLP_NORM.forward` (lines 156-160),
transcribed statement by statement: the feature dropout is computed
into `xX`, which is immediately overwritten by `fc1` applied to the
raw features `x`; then the delta-mix with `fc3 adj` is rectified and
dropped out. -/
def forward_x0 {n f h nn : ℕ} (training : Bool)
    (dropF : Mat n f → Mat n f) (dropH : Mat n h → Mat n h)
    (fc1 : Lin f h) (fc3 : Lin nn h) (delta : ℚ)
    (x : Mat n f) (adjM : Mat n nn) : Mat n h :=
  let xX := dropoutApp training dropF x
  let xX := linApp fc1 x
  let xA := linApp fc3 adjM
  let xm := relu (delta • xX + (1 - delta) • xA)
  dropoutApp training dropH xm

/-- Forward-pass embedding as the specification words it: dropout
applied to the features before the `fc1` projection, and again to the
mixed activation after the rectification. -/
def forward_x0_spec {n f h nn : ℕ} (training : Bool)
    (dropF : Mat n f → Mat n f) (dropH : Mat n h → Mat n h)
    (fc1 : Lin f h) (fc3 : Lin nn h) (delta : ℚ)
    (x : Mat n f) (adjM : Mat n nn) : Mat n h :=
  let xX := linApp fc1 (dropoutApp training dropF x)
  let xA := linApp fc3 adjM
  dropoutApp training dropH (relu (delta • xX + (1 - delta) • xA))

/-! ### Row normalization (main.py lines 259-266) -/

/-- Reciprocal of a row sum as the script computes it:
`np.power(s, -1)` followed by replacing infinities with zero, i.e. zero
maps to zero and everything else to its reciprocal. -/
def rowInvEntry (s : ℚ) : ℚ :=
  if s = 0 then 0 else s⁻¹

/-- Row-normalize a matrix (`normalize`): scale each row by the
guarded reciprocal of its sum (`sp.diags(r_inv).dot(mx)`). -/
def normalize {m k : ℕ} (M : Matrix (Fin m) (Fin k) ℚ) : Matrix (Fin m) (Fin k) ℚ :=
  Matrix.of fun i j => rowInvEntry (∑ l, M i l) * M i j

/-! ### Training loop (main.py lines 539-576)

Each epoch evaluates a validation metric; the metric computation sits
in a `try`/`except` whose handler breaks out of the loop, modelled by
an Option-valued metric sequence (`none` = the computation raised).
The loop keeps a best metric (initially 0) and a patience counter
(initially 0): a strict improvement resets patience to 0, anything
else increments it, and the loop breaks once
`patience >= early_stopping`. -/

/-- Remaining training loop from epoch `t` with `fuel` epochs left in
the budget, current best metric `best` and patience counter `pat`;
returns the number of epochs the loop still executes. -/
def runFrom (seq : ℕ → Option ℚ) (P : ℕ) : ℕ → ℕ → ℚ → ℕ → ℕ
  | 0, _, _, _ => 0
  | fuel + 1, t, best, pat =>
    match seq t with
    | none => 1
    | some m =>
      if best < m then
        if P ≤ 0 then 1 else 1 + runFrom seq P fuel (t + 1) m 0
      else
        if P ≤ pat + 1 then 1 else 1 + runFrom seq P fuel (t + 1) best (pat + 1)

/-- Number of epochs executed by the training loop with epoch budget
`E` and early-stopping patience limit `P`. -/
def epochsRun (seq : ℕ → Option ℚ) (E P : ℕ) : ℕ :=
  runFrom seq P E 0 0 0

/-! ### Best-parameter checkpoint (main.py lines 568-571)

`best_params = deepcopy(model.state_dict())` stores a deep copy of the
live parameters, and `optimizer.step()` mutates only the live ones.
Parameter tensors are modelled as cells of an allocating store:
`state_dict` is the list of live cell addresses, `deepcopy` copies the
addressed values into freshly allocated cells, and an optimizer step
overwrites exactly the live addresses. -/

/-- An allocating store of rational cells: the heap contents and the
next fresh address. -/
structure HStore where
  heap : ℕ → ℚ
  next : ℕ

/-- Read one cell. -/
def readCell (s : HStore) (a : ℕ) : ℚ :=
  s.heap a

/-- Overwrite one cell in place. -/
def writeCell (s : HStore) (a : ℕ) (v : ℚ) : HStore :=
  ⟨fun b => if b = a then v else s.heap b, s.next⟩

/-- Allocate one fresh cell holding a copy of the value at address
`a`. -/
def allocCopy (s : HStore) (a : ℕ) : HStore :=
  ⟨fun b => if b = s.next then s.heap a else s.heap b, s.next + 1⟩

/-- Deep copy (`deepcopy(model.state_dict())`): copy the values at the
given addresses into freshly allocated cells, returning the grown
store and the fresh addresses. -/
def copyList (s : HStore) : List ℕ → HStore × List ℕ
  | [] => (s, [])
  | a :: as =>
    let r := copyList (allocCopy s a) as
    (r.1, s.next :: r.2)

/-- One optimizer step (`optimizer.step()`): overwrite every live
parameter address with its updated value. -/
def optStep (upd : ℕ → ℚ) : HStore → List ℕ → HStore
  | s, [] => s
  | s, a :: as => optStep upd (writeCell s a (upd a)) as

/-- A sequence of optimizer steps applied to the same live
addresses. -/
def optSteps (live : List ℕ) : HStore → List (ℕ → ℚ) → HStore
  | s, [] => s
  | s, u :: us => optSteps live (optStep u s live) us

/-- State carried across the checkpointing conditional: the store, the
live parameter addresses, the best validation metric so far, the
snapshot addresses (if a snapshot was taken), and the patience
counter. -/
structure LoopSt where
  store : HStore
  live : List ℕ
  bestMetric : ℚ
  bestParams : Option (List ℕ)
  patience : ℕ

/-- The checkpointing conditional of the training loop (lines
568-573): on a strict improvement of the validation metric, record the
metric, deep-copy the live parameters into the snapshot and reset
patience; otherwise increment patience. -/
def evalStep (st : LoopSt) (metricVal : ℚ) : LoopSt :=
  if st.bestMetric < metricVal then
    let r := copyList st.store st.live
    { store := r.1, live := st.live, bestMetric := metricVal,
      bestParams := some r.2, patience := 0 }
  else
    { st with patience := st.patience + 1 }

/-- A one-parameter demonstration state: live cell at address 0,
allocation frontier 1, no snapshot yet. -/
def snapDemo : LoopSt :=
  ⟨⟨fun _ => 0, 1⟩, [0], 0, none, 0⟩

/-! ### Closed form of strategy 1 and totality of strategies 2 and 3 -/

/-- The computable inverse agrees with Mathlib's noncomputable matrix
inverse. -/
theorem minv_eq_inv {k : ℕ} (A : Matrix (Fin k) (Fin k) ℚ) : minv A = A⁻¹ := by
  rw [Matrix.inv_def, minv, Ring.inverse_eq_inv]

/-- Accumulator invariant of the strategy-1 loop: it adds the first `k`
positive adjacency powers applied to `tmp`. -/
theorem ofun1Loop_eq {n c : ℕ} (adjM : Mat n n) (k : ℕ) :
    ∀ (tmp s : Mat n c),
      ofun1Loop adjM k tmp s = s + ∑ i ∈ Finset.range k, adjM ^ (i + 1) * tmp := by
  induction k with
  | zero => intro tmp s; simp [ofun1Loop]
  | succ k ih =>
    intro tmp s
    have h1 : ∀ i : ℕ, adjM ^ (i + 1) * (adjM * tmp) = adjM ^ (i + 1 + 1) * tmp := by
      intro i
      rw [← Matrix.mul_assoc, ← pow_succ]
    rw [ofun1Loop, ih, Finset.sum_range_succ']
    simp only [h1, zero_add, pow_one]
    abel

/-- Claim C2: strategy-1 propagation returns exactly the residual plus
the sum of the first `K` adjacency powers applied to it (so `K + 1`
terms in total, the raw residual included unweighted), and in
particular returns the residual itself when `K = 0`. -/
theorem order_func1_closed_form {n c : ℕ} (K : ℕ) (res : Mat n c) (adjM : Mat n n) :
    order_func1 K res adjM = res + ∑ k ∈ Finset.range K, adjM ^ (k + 1) * res ∧
      order_func1 0 res adjM = res := by
  refine ⟨?_, rfl⟩
  rw [order_func1, ofun1Loop_eq]

/-- The strategy-2 loop succeeds whenever every index it touches is in
range of the weight list. -/
theorem ofun2Loop_isSome {n c : ℕ} (adjM : Mat n n) (w : List ℚ) (cnt : ℕ) :
    ∀ (i : ℕ) (tmp s : Mat n c), i + cnt ≤ w.length →
      (ofun2Loop adjM w i cnt tmp s).isSome := by
  induction cnt with
  | zero => intro i tmp s _; simp [ofun2Loop]
  | succ cnt ih =>
    intro i tmp s hle
    have hi : i < w.length := by omega
    rw [ofun2Loop, List.get?_eq_get hi]
    exact ih (i + 1) _ _ (by omega)

/-- The strategy-3 loop succeeds whenever every row index it touches is
in range of the weight matrix. -/
theorem ofun3Loop_isSome {n c K : ℕ} (adjM : Mat n n) (para : Mat K n) (cnt : ℕ) :
    ∀ (i : ℕ) (tmp s : Mat n c), i + cnt ≤ K →
      (ofun3Loop adjM para i cnt tmp s).isSome := by
  induction cnt with
  | zero => intro i tmp s _; simp [ofun3Loop]
  | succ cnt ih =>
    intro i tmp s hle
    have hi : i < K := by omega
    rw [ofun3Loop, rowGet, dif_pos hi]
    exact ih (i + 1) _ _ (by omega)

/-- Claim C10: with the per-order weights the model constructs,
strategy 2 and strategy 3 are defined exactly when `orders ≥ 1` (both
index entry 0 of an `orders`-sized weight tensor before any loop guard
applies), while strategy 1 at `orders = 0` totally returns the residual
unchanged. -/
theorem order_funcs_orders_precondition {n c : ℕ} (orders : ℕ)
    (M1 : Mat c orders) (M2 : Mat orders orders)
    (x res : Mat n c) (adjM : Mat n n) :
    ((order_func2 (mkOrdersWeight orders) orders res adjM).isSome ↔ 0 < orders) ∧
      ((order_func3 orders M1 M2 x res adjM).isSome ↔ 0 < orders) ∧
      order_func1 0 res adjM = res := by
  refine ⟨?_, ?_, rfl⟩
  · cases orders with
    | zero => simp [order_func2, mkOrdersWeight]
    | succ o =>
      have h0 : (mkOrdersWeight (o + 1)).get? 0 = some (1 / ((o : ℚ) + 1)) := by
        simp [mkOrdersWeight]
      rw [order_func2, h0]
      simp only [Nat.succ_sub_one]
      constructor
      · intro _; omega
      · intro _
        exact ofun2Loop_isSome adjM (mkOrdersWeight (o + 1)) o 1 _ _
          (by simp [mkOrdersWeight]; omega)
  · cases orders with
    | zero => simp [order_func3, rowGet]
    | succ o =>
      rw [order_func3]
      have h0 : (0 : ℕ) < o + 1 := by omega
      rw [rowGet, dif_pos h0]
      simp only [Nat.succ_sub_one]
      constructor
      · intro _; omega
      · intro _
        exact ofun3Loop_isSome _ _ o 1 _ _ (by omega)

/-! ### Normalization-step theorems -/

/-- Claim C1: under the stated hyperparameter side conditions, one
application of variant-1 normalization returns exactly the closed-form
update the specification writes down. -/
theorem norm_func1_matches_spec {n c : ℕ} (alpha beta gamma : ℚ)
    (ofun : Mat n c → Mat n c → Mat n n → Mat n c)
    (x h0 : Mat n c) (adjM : Mat n n)
    (hab : alpha + beta ≠ 0) (hg : gamma ≠ 1) :
    norm_func1 alpha beta gamma ofun x h0 adjM =
      norm_func1_spec alpha beta gamma ofun x h0 adjM := by
  simp only [norm_func1, norm_func1_spec, pow_two, mul_assoc]

/-- Witness for claim C1 at a concrete instance. -/
theorem norm_func1_matches_spec_witness :
    (1 : ℚ) + 0 ≠ 0 ∧ (0 : ℚ) ≠ 1 ∧
      norm_func1 (n := 1) (c := 1) 1 0 0 (fun _ r _ => r) 0 0 0 =
        norm_func1_spec 1 0 0 (fun _ r _ => r) 0 0 0 :=
  ⟨by norm_num, by norm_num,
    norm_func1_matches_spec 1 0 0 (fun _ r _ => r) 0 0 0 (by norm_num) (by norm_num)⟩

/-- NaN absorbs float addition on the left. -/
theorem fadd_nan_left (b : FScalar) : fadd .nan b = .nan := by
  cases b <;> rfl

/-- NaN absorbs float addition on the right. -/
theorem fadd_nan_right (a : FScalar) : fadd a .nan = .nan := by
  cases a <;> rfl

/-- NaN absorbs float multiplication on the left. -/
theorem fmul_nan_left (b : FScalar) : fmul .nan b = .nan := by
  cases b <;> rfl

/-- NaN absorbs float multiplication on the right. -/
theorem fmul_nan_right (a : FScalar) : fmul a .nan = .nan := by
  cases a <;> rfl

/-- A NaN left addend poisons a float sum. -/
theorem fadd_eq_nan_of_left {a : FScalar} (b : FScalar) (h : a = .nan) :
    fadd a b = .nan := by
  rw [h]; exact fadd_nan_left b

/-- A NaN left operand poisons a float difference. -/
theorem fsub_eq_nan_of_left {a : FScalar} (b : FScalar) (h : a = .nan) :
    fsub a b = .nan := by
  rw [h]; cases b <;> rfl

/-- A NaN right operand poisons a float difference. -/
theorem fsub_eq_nan_of_right (a : FScalar) {b : FScalar} (h : b = .nan) :
    fsub a b = .nan := by
  rw [h]; cases a <;> rfl

/-- A NaN left factor poisons a float product. -/
theorem fmul_eq_nan_of_left {a : FScalar} (b : FScalar) (h : a = .nan) :
    fmul a b = .nan := by
  rw [h]; exact fmul_nan_left b

/-- A NaN right factor poisons a float product. -/
theorem fmul_eq_nan_of_right (a : FScalar) {b : FScalar} (h : b = .nan) :
    fmul a b = .nan := by
  rw [h]; exact fmul_nan_right a

/-- A NaN leading term poisons a float sum over an index range. -/
theorem fSum_map_nan {b : ℕ} (hb : 0 < b) (f : Fin b → FScalar)
    (h : f ⟨0, hb⟩ = .nan) : fSum ((List.finRange b).map f) = .nan := by
  cases b with
  | zero => omega
  | succ m =>
    rw [List.finRange_succ_eq_map, List.map_cons, fSum]
    exact fadd_eq_nan_of_left _ h

/-- The concrete inverse model propagates NaN as demanded. -/
theorem finvNan_propagates {c : ℕ} (A : FMat c c)
    (hA : ∃ i j, A i j = FScalar.nan) :
    ∀ i j, finvNan A i j = FScalar.nan := by
  intro i j
  simp only [finvNan]
  rw [if_pos hA]
  rfl

/-- At `gamma = 1` in float64 the update NaN-poisons: `coe2 = inf`,
the matrix handed to the inverse has a NaN off-diagonal entry (class
count at least 2), and for every NaN-propagating inverse backend every
entry of the returned matrix is NaN, whatever the other
hyperparameters, inputs and propagation operator are. -/
theorem normFunc1Float_nan_entries {n c : ℕ} (hc : 2 ≤ c)
    (finv : FMat c c → FMat c c)
    (hfinv : ∀ A : FMat c c, (∃ i j, A i j = FScalar.nan) →
      ∀ i j, finv A i j = FScalar.nan)
    (falpha fbeta : FScalar) (fofun : FMat n c → FMat n c → FMat n n → FMat n c)
    (fx fh0 : FMat n c) (fadjM : FMat n n) :
    ∀ (i : Fin n) (j : Fin c),
      normFunc1Float finv falpha fbeta (.fin 1) fofun fx fh0 fadjM i j = FScalar.nan := by
  intro i j
  have hn0 : 0 < n := i.pos
  have hc0 : 0 < c := by omega
  simp only [normFunc1Float, fMatAdd, fMatSub, fSmul, fMatMul, Matrix.of_apply]
  apply fadd_eq_nan_of_left
  apply fsub_eq_nan_of_left
  apply fadd_eq_nan_of_left
  apply fmul_eq_nan_of_right
  apply fSum_map_nan hc0
  apply fmul_eq_nan_of_right
  apply fSum_map_nan hn0
  apply fmul_eq_nan_of_right
  apply fsub_eq_nan_of_right
  apply fmul_eq_nan_of_right
  apply fSum_map_nan hc0
  apply fmul_eq_nan_of_right
  apply fSum_map_nan hc0
  apply fmul_eq_nan_of_left
  apply hfinv
  have hc1 : 1 < c := by omega
  refine ⟨⟨0, hc0⟩, ⟨1, hc1⟩, ?_⟩
  simp only [Matrix.of_apply, feye]
  rw [if_neg (by simp [Fin.ext_iff])]
  apply fadd_eq_nan_of_left
  have h1 : fsub (.fin 1) (.fin 1) = FScalar.fin 0 := by
    norm_num [fsub, fneg, fadd]
  have h2 : fdiv (.fin 1) (FScalar.fin 0) = FScalar.inf := by
    norm_num [fdiv]
  have h3 : fmul FScalar.inf FScalar.inf = FScalar.inf := rfl
  have h4 : fmul FScalar.inf (FScalar.fin 0) = FScalar.nan := by
    norm_num [fmul]
  rw [h1, h2, h3, h4]

/-- Counterexample to claim C4 as stated: in the float64 semantics of
the source, variant-1 normalization with `beta = 0` and `gamma = 1`
does not return `h0` — at a concrete 1-node, 2-class input with a
NaN-propagating inverse backend the result is a NaN matrix, not the
skip term. -/
theorem norm_func1_gamma1_not_h0_float :
    normFunc1Float (n := 1) (c := 2) finvNan (.fin 1) (.fin 0) (.fin 1)
        (fun _ r _ => r) fxDemo fxDemo fadjDemo ≠ fxDemo := by
  intro heq
  have h00 : normFunc1Float (n := 1) (c := 2) finvNan (.fin 1) (.fin 0) (.fin 1)
      (fun _ r _ => r) fxDemo fxDemo fadjDemo 0 0 = fxDemo 0 0 :=
    congrArg (fun M : FMat 1 2 => M 0 0) heq
  have hnan := normFunc1Float_nan_entries (by omega) finvNan
    (fun A hA => finvNan_propagates A hA) (.fin 1) (.fin 0) (fun _ r _ => r)
    fxDemo fxDemo fadjDemo 0 0
  rw [hnan] at h00
  have hx : fxDemo 0 0 = FScalar.fin 1 := rfl
  rw [hx] at h00
  exact FScalar.noConfusion h00

/-- Claim C4 (amended): with `beta = 0` the propagation contribution
to the variant-1 update is zero — in the faithful regime `gamma ≠ 1`
the returned matrix does not depend on the selected propagation
operator at all; but at `gamma = 1` exactly the float64 program does
not collapse to the skip term: the division `coe2 = 1/(1-gamma)`
overflows to infinity and every entry of the returned matrix is NaN
for every NaN-propagating inverse backend (class count at least 2). -/
theorem norm_func1_beta0_collapse {n c : ℕ} (alpha gamma : ℚ) (hg : gamma ≠ 1)
    (ofun ofun2 : Mat n c → Mat n c → Mat n n → Mat n c)
    (x h0 : Mat n c) (adjM : Mat n n)
    (hc : 2 ≤ c) (finv : FMat c c → FMat c c)
    (hfinv : ∀ A : FMat c c, (∃ i j, A i j = FScalar.nan) →
      ∀ i j, finv A i j = FScalar.nan)
    (falpha : FScalar) (fofun : FMat n c → FMat n c → FMat n n → FMat n c)
    (fx fh0 : FMat n c) (fadjM : FMat n n) :
    norm_func1 alpha 0 gamma ofun x h0 adjM =
        norm_func1 alpha 0 gamma ofun2 x h0 adjM ∧
      ∀ (i : Fin n) (j : Fin c),
        normFunc1Float finv falpha (.fin 0) (.fin 1) fofun fx fh0 fadjM i j =
          FScalar.nan :=
  ⟨by simp [norm_func1],
    normFunc1Float_nan_entries hc finv hfinv falpha (.fin 0) fofun fx fh0 fadjM⟩

/-- Witness for the amended claim C4 at a concrete instance. -/
theorem norm_func1_beta0_collapse_witness :
    (norm_func1 (n := 1) (c := 2) 1 0 0 (fun _ r _ => r) 0 0 0 =
        norm_func1 1 0 0 (fun _ _ _ => 0) 0 0 0) ∧
      ∀ (i : Fin 1) (j : Fin 2),
        normFunc1Float finvNan (.fin 1) (.fin 0) (.fin 1) (fun _ r _ => r)
          fxDemo fxDemo fadjDemo i j = FScalar.nan :=
  norm_func1_beta0_collapse 1 0 (by norm_num) (fun _ r _ => r) (fun _ _ _ => 0)
    0 0 0 (by norm_num) finvNan (fun A hA => finvNan_propagates A hA)
    (.fin 1) (fun _ r _ => r) fxDemo fxDemo fadjDemo

/-- The `z`-block loop succeeds whenever every index it touches is in
range of the weight list. -/
theorem zLoop_isSome {n : ℕ} (w : List ℚ) (adjM : Mat n n) (cnt : ℕ) :
    ∀ (i : ℕ) (adjk acc : Mat n n), i + cnt ≤ w.length →
      (zLoop w adjM i cnt adjk acc).isSome := by
  induction cnt with
  | zero => intro i adjk acc _; simp [zLoop]
  | succ cnt ih =>
    intro i adjk acc hle
    have hi : i < w.length := by omega
    rw [zLoop, List.get?_eq_get hi]
    exact ih (i + 1) _ _ (by omega)

/-- With a weight list of the size the model constructs and at least
one order, the `z`-block power sum is defined. -/
theorem zAccum_isSome {n : ℕ} (w : List ℚ) (orders : ℕ) (adjM : Mat n n)
    (hlen : w.length = orders) (hpos : 0 < orders) :
    ∃ a, zAccum w orders adjM = some a := by
  have h0 : 0 < w.length := by omega
  rw [zAccum, List.get?_eq_get h0]
  have := zLoop_isSome w adjM (orders - 1) 1 adjM ((w.get ⟨0, h0⟩) • adjM) (by omega)
  exact Option.isSome_iff_exists.mp this

/-- Counterexample to claim C5 as stated: at `orders = 0` (empty
per-order weight list) the `z` block's weight indexing fails, so
`norm_func2` does not return the `z`-free update there. -/
theorem norm_func2_total_counterexample :
    norm_func2 (n := 1) (c := 1) 1 1 0 (fun _ => 1) [] 0 (fun _ r _ => r) 0 0 0 ≠
      some (norm_func2_noz 1 1 0 (fun _ => 1) (fun _ r _ => r) 0 0 0) :=
  fun h => Option.noConfusion h

/-- Claim C5 (amended): for every model with at least one propagation
order and the matching weight-list length, the trailing `z` block of
variant-2 normalization never affects the returned matrix:
`norm_func2` returns exactly the diag-weighted variant-1 update with
the `z` block deleted. -/
theorem norm_func2_z_block_unused {n c : ℕ} (alpha beta gamma : ℚ)
    (dw : Fin c → ℚ) (ow : List ℚ) (orders : ℕ)
    (ofun : Mat n c → Mat n c → Mat n n → Mat n c)
    (x h0 : Mat n c) (adjM : Mat n n)
    (hlen : ow.length = orders) (hpos : 0 < orders) :
    norm_func2 alpha beta gamma dw ow orders ofun x h0 adjM =
      some (norm_func2_noz alpha beta gamma dw ofun x h0 adjM) := by
  obtain ⟨a, ha⟩ := zAccum_isSome ow orders adjM hlen hpos
  simp only [norm_func2, norm_func2_noz, ha]

/-- Witness for the amended claim C5 at a concrete instance. -/
theorem norm_func2_z_block_unused_witness :
    norm_func2 (n := 1) (c := 1) 1 0 0 (fun _ => 1) [1] 1 (fun _ r _ => r) 0 0 0 =
      some (norm_func2_noz 1 0 0 (fun _ => 1) (fun _ r _ => r) 0 0 0) :=
  norm_func2_z_block_unused 1 0 0 (fun _ => 1) [1] 1 (fun _ r _ => r) 0 0 0 rfl
    (by norm_num)

/-! ### Forward-pass theorems -/

/-- Counterexample to claim C3 as stated: in training mode the forward
pass does not apply the feature dropout before the `fc1` projection
(the dropout result is overwritten); a dropout realization that zeroes
the features distinguishes the code from the specification's
formula. -/
theorem forward_feature_dropout_claim_false :
    @forward_x0 1 1 1 1 true (fun _ => 0) (fun v => v)
        ⟨Matrix.of fun _ _ => 1, fun _ => 0⟩ ⟨0, fun _ => 0⟩ 1 (Matrix.of fun _ _ => 1) 0 ≠
      @forward_x0_spec 1 1 1 1 true (fun _ => 0) (fun v => v)
        ⟨Matrix.of fun _ _ => 1, fun _ => 0⟩ ⟨0, fun _ => 0⟩ 1 (Matrix.of fun _ _ => 1) 0 := by
  intro heq
  have h00 := congrArg (fun M : Mat 1 1 => M 0 0) heq
  simp only [forward_x0, forward_x0_spec, dropoutApp, linApp, relu, Matrix.of_apply,
    if_true, Matrix.mul_apply] at h00
  norm_num at h00

/-- Claim C3 (amended): the feature dropout computed by the forward
pass is discarded — `fc1` is applied to the raw features — so the
pre-normalization embedding is
`dropout(relu(delta * fc1(x) + (1-delta) * fc3(adj)))`, it does not
depend on the feature-dropout realization at all, and in evaluation
mode both dropout sites are the identity. -/
theorem forward_x0_characterization {n f h nn : ℕ} (training : Bool)
    (dropF dropF2 : Mat n f → Mat n f) (dropH : Mat n h → Mat n h)
    (fc1 : Lin f h) (fc3 : Lin nn h) (delta : ℚ) (x : Mat n f) (adjM : Mat n nn) :
    forward_x0 training dropF dropH fc1 fc3 delta x adjM =
      dropoutApp training dropH
        (relu (delta • linApp fc1 x + (1 - delta) • linApp fc3 adjM)) ∧
    forward_x0 training dropF dropH fc1 fc3 delta x adjM =
      forward_x0 training dropF2 dropH fc1 fc3 delta x adjM ∧
    forward_x0 false dropF dropH fc1 fc3 delta x adjM =
      relu (delta • linApp fc1 x + (1 - delta) • linApp fc3 adjM) :=
  ⟨rfl, rfl, rfl⟩

/-! ### Row-normalization theorems -/

/-- Claim C6: row normalization divides each row by its sum, maps rows
of a nonnegative matrix summing to zero to all-zero rows, and leaves
every row summing to 1 or to 0 — to 0 exactly when the original row
was all zeros; consequently every row of the self-loop-augmented
normalized adjacency sums to 1. -/
theorem normalize_row_sum_invariant {m k p : ℕ}
    (M : Matrix (Fin m) (Fin k) ℚ) (A : Matrix (Fin p) (Fin p) ℚ)
    (hM : ∀ i j, 0 ≤ M i j) (hA : ∀ i j, 0 ≤ A i j) (i : Fin m) (ia : Fin p) :
    ((∑ l, M i l) = 0 → ∀ j, normalize M i j = 0) ∧
      ((∑ j, normalize M i j) = 1 ∨ (∑ j, normalize M i j) = 0) ∧
      (((∑ j, normalize M i j) = 0) ↔ ∀ j, M i j = 0) ∧
      (∑ j, normalize (A + 1) ia j) = 1 := by
  have key : ∀ (a b : ℕ) (N : Matrix (Fin a) (Fin b) ℚ), (∀ r j, 0 ≤ N r j) →
      ∀ r : Fin a,
        ((∑ l, N r l) = 0 → ∀ j, normalize N r j = 0) ∧
        ((∑ j, normalize N r j) = 1 ∨ (∑ j, normalize N r j) = 0) ∧
        (((∑ j, normalize N r j) = 0) ↔ ∀ j, N r j = 0) := by
    intro a b N hN r
    have hrow : (∑ j, normalize N r j) = rowInvEntry (∑ l, N r l) * (∑ l, N r l) := by
      simp only [normalize, Matrix.of_apply]
      rw [Finset.mul_sum]
    by_cases h0 : (∑ l, N r l) = 0
    · have hz : ∀ j, N r j = 0 := by
        intro j
        exact (Finset.sum_eq_zero_iff_of_nonneg fun l _ => hN r l).mp h0 j
          (Finset.mem_univ j)
      refine ⟨fun _ j => ?_, Or.inr ?_, ?_⟩
      · simp [normalize, hz j]
      · rw [hrow, h0, mul_zero]
      · exact ⟨fun _ => hz, fun _ => by rw [hrow, h0, mul_zero]⟩
    · have h1 : (∑ j, normalize N r j) = 1 := by
        rw [hrow, rowInvEntry, if_neg h0, inv_mul_cancel₀ h0]
      refine ⟨fun hc => absurd hc h0, Or.inl h1, ?_, ?_⟩
      · intro hc; rw [h1] at hc; exact absurd hc one_ne_zero
      · intro hall
        exact absurd (Finset.sum_eq_zero fun l _ => hall l) h0
  obtain ⟨k1, k2, k3⟩ := key m k M hM i
  have hA1 : ∀ (r j : Fin p), 0 ≤ (A + 1) r j := by
    intro r j
    have h1 := hA r j
    simp only [Matrix.add_apply, Matrix.one_apply]
    by_cases hrj : r = j
    · rw [if_pos hrj]; linarith
    · rw [if_neg hrj]; linarith
  obtain ⟨_, a2, a3⟩ := key p p (A + 1) hA1 ia
  refine ⟨k1, k2, k3, ?_⟩
  rcases a2 with h | h
  · exact h
  · exfalso
    have hdiag := (a3.mp h) ia
    have : (A + 1) ia ia = A ia ia + 1 := by
      simp [Matrix.add_apply, Matrix.one_apply]
    rw [this] at hdiag
    have := hA ia ia
    linarith

/-- Witness for claim C6 at a concrete instance. -/
theorem normalize_row_sum_invariant_witness :
    ((∑ l, (0 : Matrix (Fin 1) (Fin 1) ℚ) 0 l) = 0 →
        ∀ j, normalize (0 : Matrix (Fin 1) (Fin 1) ℚ) 0 j = 0) ∧
      ((∑ j, normalize (0 : Matrix (Fin 1) (Fin 1) ℚ) 0 j) = 1 ∨
        (∑ j, normalize (0 : Matrix (Fin 1) (Fin 1) ℚ) 0 j) = 0) ∧
      (((∑ j, normalize (0 : Matrix (Fin 1) (Fin 1) ℚ) 0 j) = 0) ↔
        ∀ j, (0 : Matrix (Fin 1) (Fin 1) ℚ) 0 j = 0) ∧
      (∑ j, normalize ((0 : Matrix (Fin 1) (Fin 1) ℚ) + 1) 0 j) = 1 :=
  normalize_row_sum_invariant 0 0 (fun _ _ => le_refl 0) (fun _ _ => le_refl 0) 0 0

/-! ### Training-loop theorems: early stopping and metric failure -/

/-- The loop never outruns its epoch budget. -/
theorem runFrom_le_fuel (seq : ℕ → Option ℚ) (P : ℕ) :
    ∀ (fuel t : ℕ) (best : ℚ) (pat : ℕ), runFrom seq P fuel t best pat ≤ fuel := by
  intro fuel
  induction fuel with
  | zero => intro t best pat; simp [runFrom]
  | succ fuel ih =>
    intro t best pat
    cases hseq : seq t with
    | none => simp only [runFrom, hseq]; omega
    | some mv =>
      simp only [runFrom, hseq]
      by_cases h1 : best < mv
      · rw [if_pos h1]
        by_cases h2 : P ≤ 0
        · rw [if_pos h2]; omega
        · rw [if_neg h2]
          have := ih (t + 1) mv 0
          omega
      · rw [if_neg h1]
        by_cases h2 : P ≤ pat + 1
        · rw [if_pos h2]; omega
        · rw [if_neg h2]
          have := ih (t + 1) best (pat + 1)
          omega

/-- After the last improvement the loop runs down the patience budget:
if the metric never beats the running best, the loop executes exactly
`P - pat` more epochs (or the rest of the budget, whichever is
smaller). -/
theorem runFrom_flat (m : ℕ → ℚ) (P : ℕ) (b : ℚ) :
    ∀ (fuel t pat : ℕ), (∀ s, t ≤ s → m s ≤ b) → pat < P →
      runFrom (fun s => some (m s)) P fuel t b pat = min fuel (P - pat) := by
  intro fuel
  induction fuel with
  | zero => intro t pat _ _; simp [runFrom]
  | succ fuel ih =>
    intro t pat hle hpat
    have hnot : ¬ b < m t := not_lt.mpr (hle t le_rfl)
    simp only [runFrom]
    rw [if_neg hnot]
    by_cases hP : P ≤ pat + 1
    · rw [if_pos hP]; omega
    · rw [if_neg hP, ih (t + 1) (pat + 1) (fun s hs => hle s (by omega)) (by omega)]
      omega

/-- Climbing phase: while the metric strictly improves every epoch up
to epoch `e` and never improves afterwards, the loop executes the
remaining climb plus exactly `P` non-improving epochs. -/
theorem runFrom_climb (m : ℕ → ℚ) (P e : ℕ) (hP : 1 ≤ P)
    (hflat : ∀ s, e < s → m s ≤ m e) :
    ∀ (fuel t : ℕ) (best : ℚ) (pat : ℕ), t ≤ e → e - t + 1 + P ≤ fuel →
      best < m t → (∀ i, t ≤ i → i < e → m i < m (i + 1)) →
      runFrom (fun s => some (m s)) P fuel t best pat = e - t + 1 + P := by
  intro fuel
  induction fuel with
  | zero => intro t best pat _ hfuel _ _; omega
  | succ fuel ih =>
    intro t best pat hte hfuel hbest hinc
    simp only [runFrom]
    rw [if_pos hbest, if_neg (by omega : ¬ P ≤ 0)]
    by_cases hcase : t = e
    · subst hcase
      rw [runFrom_flat m P (m t) fuel (t + 1) 0 (fun s hs => hflat s (by omega))
        (by omega)]
      omega
    · have hlt : t < e := by omega
      rw [ih (t + 1) (m t) 0 (by omega) (by omega) (hinc t le_rfl hlt)
        (fun i h1 h2 => hinc i (by omega) h2)]
      omega

/-- Claim C7: on a validation-metric sequence that strictly improves at
every epoch up to epoch `e` and never improves afterwards, the
training loop halts exactly `P` evaluations after the last improvement
(executing `e + 1 + P` epochs), provided the patience limit is at
least 1 and the epoch budget does not end the loop first; and the loop
never exceeds its epoch budget. -/
theorem early_stopping_patience_halt (m : ℕ → ℚ) (e E P : ℕ)
    (hP : 1 ≤ P) (hm0 : 0 < m 0)
    (hinc : ∀ i, i < e → m i < m (i + 1))
    (hflat : ∀ t, e < t → m t ≤ m e)
    (hE : e + 1 + P ≤ E) :
    epochsRun (fun t => some (m t)) E P = e + 1 + P ∧
      (∀ (fuel : ℕ) (best : ℚ) (pat : ℕ), best < m e → 1 + P ≤ fuel →
        runFrom (fun t => some (m t)) P fuel e best pat = 1 + P) ∧
      ∀ (seq : ℕ → Option ℚ) (E2 P2 : ℕ), epochsRun seq E2 P2 ≤ E2 := by
  refine ⟨?_, ?_, ?_⟩
  · have h := runFrom_climb m P e hP hflat E 0 0 0 (by omega) (by omega) hm0
      (fun i _ h2 => hinc i h2)
    rw [epochsRun, h]
    omega
  · intro fuel best pat hbest hfuel
    have h := runFrom_climb m P e hP hflat fuel e best pat le_rfl (by omega) hbest
      (fun i h1 h2 => absurd h2 (by omega))
    rw [h]
    omega
  · intro seq E2 P2
    exact runFrom_le_fuel seq P2 E2 0 0 0

/-- Witness for claim C7 at a concrete instance: the metric improves
only at epoch 0, patience is 2, and the loop runs 3 epochs. -/
theorem early_stopping_patience_halt_witness :
    epochsRun (fun t => some (if t = 0 then (1 : ℚ) else 0)) 5 2 = 0 + 1 + 2 ∧
      (∀ (fuel : ℕ) (best : ℚ) (pat : ℕ),
        best < (if (0 : ℕ) = 0 then (1 : ℚ) else 0) → 1 + 2 ≤ fuel →
        runFrom (fun t => some (if t = 0 then (1 : ℚ) else 0)) 2 fuel 0 best pat = 1 + 2) ∧
      ∀ (seq : ℕ → Option ℚ) (E2 P2 : ℕ), epochsRun seq E2 P2 ≤ E2 :=
  early_stopping_patience_halt (fun t => if t = 0 then (1 : ℚ) else 0) 0 5 2
    (by norm_num) (by norm_num)
    (fun i hi => absurd hi (Nat.not_lt_zero i))
    (fun t ht => by
      show (if t = 0 then (1 : ℚ) else 0) ≤ (if (0 : ℕ) = 0 then (1 : ℚ) else 0)
      rw [if_neg (by omega), if_pos rfl]
      norm_num)
    (by norm_num)

/-- Run up to a failing metric evaluation: if the metric strictly
improves at every executed epoch before epoch `e` and raises at epoch
`e`, the loop executes the failing epoch and stops. -/
theorem runFrom_to_failure (seq : ℕ → Option ℚ) (m : ℕ → ℚ) (e P : ℕ) (hP : 1 ≤ P)
    (hfail : seq e = none)
    (hsome : ∀ s, s < e → seq s = some (m s))
    (hmono : ∀ i, i + 1 < e → m i < m (i + 1)) :
    ∀ (fuel t : ℕ) (best : ℚ) (pat : ℕ), t ≤ e → e - t < fuel →
      (t < e → best < m t) →
      runFrom seq P fuel t best pat = e - t + 1 := by
  intro fuel
  induction fuel with
  | zero => intro t best pat _ hfuel _; omega
  | succ fuel ih =>
    intro t best pat hte hfuel hbest
    by_cases hcase : t = e
    · subst hcase
      simp only [runFrom, hfail]
      omega
    · have hlt : t < e := by omega
      simp only [runFrom, hsome t hlt]
      rw [if_pos (hbest hlt), if_neg (by omega : ¬ P ≤ 0)]
      rw [ih (t + 1) (m t) 0 (by omega) (by omega) (fun h2 => hmono t h2)]
      omega

/-- Claim C9: if computing the validation metric raises at epoch `e`
(within the epoch budget, before early stopping could trigger), the
loop catches it and terminates immediately and silently — it executes
epoch `e` and nothing after it, and returns normally. -/
theorem metric_error_silent_halt (seq : ℕ → Option ℚ) (m : ℕ → ℚ) (e E P : ℕ)
    (hP : 1 ≤ P)
    (hsome : ∀ t, t < e → seq t = some (m t))
    (hfail : seq e = none)
    (hm0 : 0 < e → 0 < m 0)
    (hmono : ∀ i, i + 1 < e → m i < m (i + 1))
    (hE : e < E) :
    epochsRun seq E P = e + 1 := by
  have h := runFrom_to_failure seq m e P hP hfail hsome hmono E 0 0 0 (by omega)
    (by omega) hm0
  rw [epochsRun, h]
  omega

/-- Witness for claim C9 at a concrete instance: the metric raises at
epoch 0 and the loop runs exactly one epoch of its five-epoch
budget. -/
theorem metric_error_silent_halt_witness :
    epochsRun (fun t => if t = 0 then none else some 0) 5 1 = 0 + 1 :=
  metric_error_silent_halt (fun t => if t = 0 then none else some 0) (fun _ => 0) 0 5 1
    (by norm_num)
    (fun t ht => absurd ht (Nat.not_lt_zero t))
    rfl
    (fun hc => absurd hc (lt_irrefl 0))
    (fun i hi => absurd hi (by omega))
    (by norm_num)

/-! ### Checkpoint theorems -/

/-- Deep copying never lowers the allocation frontier. -/
theorem copyList_next_mono : ∀ (refs : List ℕ) (s : HStore),
    s.next ≤ (copyList s refs).1.next := by
  intro refs
  induction refs with
  | nil => intro s; exact le_rfl
  | cons x xs ih =>
    intro s
    simp only [copyList]
    exact le_trans (Nat.le_succ _) (ih (allocCopy s x))

/-- Every address a deep copy hands back is freshly allocated. -/
theorem copyList_snd_ge : ∀ (refs : List ℕ) (s : HStore) (b : ℕ),
    b ∈ (copyList s refs).2 → s.next ≤ b := by
  intro refs
  induction refs with
  | nil => intro s b hb; simp [copyList] at hb
  | cons x xs ih =>
    intro s b hb
    simp only [copyList, List.mem_cons] at hb
    rcases hb with h | h
    · omega
    · have h2 : s.next + 1 ≤ b := ih (allocCopy s x) b h
      omega

/-- Deep copying does not disturb any previously allocated cell. -/
theorem copyList_preserves : ∀ (refs : List ℕ) (s : HStore) (a : ℕ), a < s.next →
    readCell (copyList s refs).1 a = readCell s a := by
  intro refs
  induction refs with
  | nil => intro s a _; rfl
  | cons x xs ih =>
    intro s a ha
    simp only [copyList]
    rw [ih (allocCopy s x) a (Nat.lt_succ_of_lt ha)]
    simp only [readCell, allocCopy]
    rw [if_neg (by omega)]

/-- Membership-aware monotonicity for pointwise list relations. -/
theorem forall2_mono_right {α β : Type} {P Q : α → β → Prop} :
    ∀ {l1 : List α} {l2 : List β}, List.Forall₂ P l1 l2 →
      (∀ b ∈ l2, ∀ a, P a b → Q a b) → List.Forall₂ Q l1 l2 := by
  intro l1 l2 h
  induction h with
  | nil => intro _; exact List.Forall₂.nil
  | @cons a b l1t l2t hab _ ih =>
    intro hmem
    exact List.Forall₂.cons (hmem b (List.mem_cons_self b l2t) a hab)
      (ih fun b2 hb2 a2 ha2 => hmem b2 (List.mem_cons_of_mem b hb2) a2 ha2)

/-- A deep copy really copies: reading each fresh address in the grown
store yields the value the corresponding live address held. -/
theorem copyList_values : ∀ (refs : List ℕ) (s : HStore), (∀ a ∈ refs, a < s.next) →
    List.Forall₂ (fun b a => readCell (copyList s refs).1 b = readCell s a)
      (copyList s refs).2 refs := by
  intro refs
  induction refs with
  | nil => intro s _; exact List.Forall₂.nil
  | cons x xs ih =>
    intro s hval
    simp only [copyList]
    have hxs : ∀ a ∈ xs, a < (allocCopy s x).next := by
      intro a hax
      have := hval a (List.mem_cons_of_mem x hax)
      exact Nat.lt_succ_of_lt this
    refine List.Forall₂.cons ?_ ?_
    · rw [copyList_preserves xs (allocCopy s x) s.next (Nat.lt_succ_self _)]
      simp [readCell, allocCopy]
    · refine forall2_mono_right (ih (allocCopy s x) hxs) ?_
      intro a hax b hba
      rw [hba]
      simp only [readCell, allocCopy]
      rw [if_neg (by have := hval a (List.mem_cons_of_mem x hax); omega)]

/-- One optimizer step only touches the live addresses. -/
theorem optStep_frame (upd : ℕ → ℚ) : ∀ (refs : List ℕ) (s : HStore) (a : ℕ),
    a ∉ refs → readCell (optStep upd s refs) a = readCell s a := by
  intro refs
  induction refs with
  | nil => intro s a _; rfl
  | cons x xs ih =>
    intro s a ha
    rw [List.mem_cons, not_or] at ha
    simp only [optStep]
    rw [ih (writeCell s x (upd x)) a ha.2]
    simp only [readCell, writeCell]
    rw [if_neg ha.1]

/-- A whole training run of optimizer steps only touches the live
addresses. -/
theorem optSteps_frame (live : List ℕ) : ∀ (us : List (ℕ → ℚ)) (s : HStore) (a : ℕ),
    a ∉ live → readCell (optSteps live s us) a = readCell s a := by
  intro us
  induction us with
  | nil => intro s a _; rfl
  | cons u us ih =>
    intro s a ha
    simp only [optSteps]
    rw [ih (optStep u s live) a ha, optStep_frame u live s a ha]

/-- Claim C8: the checkpoint conditional takes a snapshot exactly when
the validation metric strictly exceeds the best seen so far; the
snapshot is a deep copy (its fresh cells hold the live values at copy
time), and it is unaffected by any number of subsequent optimizer
steps on the live parameters — no aliasing between snapshot and live
state. -/
theorem best_params_snapshot_frame (st : LoopSt) (mv : ℚ)
    (hvalid : ∀ a ∈ st.live, a < st.store.next) :
    (¬ st.bestMetric < mv → evalStep st mv = { st with patience := st.patience + 1 }) ∧
      (st.bestMetric < mv →
        (evalStep st mv).bestParams = some (copyList st.store st.live).2 ∧
        List.Forall₂ (fun b a => readCell (evalStep st mv).store b = readCell st.store a)
          (copyList st.store st.live).2 st.live ∧
        ∀ (us : List (ℕ → ℚ)), ∀ b ∈ (copyList st.store st.live).2,
          readCell (optSteps st.live (evalStep st mv).store us) b =
            readCell (evalStep st mv).store b) := by
  constructor
  · intro hno
    rw [evalStep, if_neg hno]
  · intro hyes
    have hstep : evalStep st mv =
        { store := (copyList st.store st.live).1, live := st.live, bestMetric := mv,
          bestParams := some (copyList st.store st.live).2, patience := 0 } := by
      rw [evalStep, if_pos hyes]
    refine ⟨by rw [hstep], ?_, ?_⟩
    · rw [hstep]
      exact copyList_values st.live st.store hvalid
    · intro us b hb
      rw [hstep]
      have hnot : b ∉ st.live := by
        intro hbl
        have h1 := copyList_snd_ge st.live st.store b hb
        have h2 := hvalid b hbl
        omega
      exact optSteps_frame st.live us _ b hnot

/-- Witness for claim C8 at a concrete instance: one live parameter
cell at address 0, a store with allocation frontier 1, and an
improving metric. -/
theorem best_params_snapshot_frame_witness :
    (¬ (snapDemo).bestMetric < (1 : ℚ) →
        evalStep snapDemo 1 = { snapDemo with patience := (snapDemo).patience + 1 }) ∧
      ((snapDemo).bestMetric < (1 : ℚ) →
        (evalStep snapDemo 1).bestParams = some (copyList (snapDemo).store (snapDemo).live).2 ∧
        List.Forall₂
          (fun b a => readCell (evalStep snapDemo 1).store b = readCell (snapDemo).store a)
          (copyList (snapDemo).store (snapDemo).live).2 (snapDemo).live ∧
        ∀ (us : List (ℕ → ℚ)), ∀ b ∈ (copyList (snapDemo).store (snapDemo).live).2,
          readCell (optSteps (snapDemo).live (evalStep snapDemo 1).store us) b =
            readCell (evalStep snapDemo 1).store b) :=
  best_params_snapshot_frame snapDemo 1
    (fun a ha => by
      simp only [snapDemo, List.mem_singleton] at ha
      simp only [snapDemo]
      omega)

end GHSM
